import Mathlib

/-!
Verification of the TI/National bipolar PROM programmer shield repository:
a shallow embedding of the firmware programming engine and command table,
the host-side command executor, and the Intel-HEX codec, together with
theorems settling the specification's claims about them.
-/

set_option maxRecDepth 4096

namespace Prom

/-- Pointwise update of a memory modelled as a function from addresses to bytes. -/
def updFn (f : Nat → Nat) (i v : Nat) : Nat → Nat :=
  fun j => if j = i then v else f j

/-! ## Firmware: programming engine (firmware sketch, `write_prom_byte`)

`write_prom_byte( cmd_data, do_write )` reads the `existing` byte, then for
bits 0..7: if the existing and target bits differ and the existing bit is
unset it burns the bit (in write mode; the electrical outcome of a burn is
modelled by the oracle `burnOk`; simulate mode skips the burn) and records it
in `returned`; a failed burn verification or a differing bit that is already
set stops the loop.  The electrical bus operations (`prog_bit`, `read_bit`,
delays) have no data content beyond the burn outcome and are abstracted by
`burnOk`. -/

/-- One pass of the `for ( int bit = 0; bit < 8; ++bit )` loop of
`write_prom_byte`, with `fuel` bits left to inspect and `returned` the
accumulator initialised to `existing`. -/
def wpbLoop (doWrite : Bool) (burnOk : Nat → Bool) (existing target : Nat) :
    Nat → Nat → Nat → Nat
  | 0, _, returned => returned
  | fuel + 1, bit, returned =>
    if existing.testBit bit ≠ target.testBit bit then
      if ¬ existing.testBit bit then
        -- different but not programmed: burn it (write mode) and record it;
        -- a failed verification stops the loop without recording the bit
        if doWrite ∧ ¬ burnOk bit then returned
        else wpbLoop doWrite burnOk existing target fuel (bit + 1) (returned ||| 2 ^ bit)
      else
        -- different and already programmed: stop
        returned
    else
      wpbLoop doWrite burnOk existing target fuel (bit + 1) returned

/-- The value returned (printed) by `write_prom_byte`: `existing` when it
already equals the target, otherwise the result of the bit loop. -/
def write_prom_byte (doWrite : Bool) (burnOk : Nat → Bool) (existing target : Nat) : Nat :=
  if existing = target then existing
  else wpbLoop doWrite burnOk existing target 8 0 existing

/-- Modelled from the spec's reference algorithm for the achieved value
(§4.2): scan bits 0..7 in ascending order, add every differing bit whose
existing bit is unset to the accumulator, and stop at the first differing bit
whose existing bit is already set.  Used as the refinement target for
`write_prom_byte`. -/
def achievedSpecLoop (existing target : Nat) : Nat → Nat → Nat → Nat
  | 0, _, acc => acc
  | fuel + 1, bit, acc =>
    if existing.testBit bit ≠ target.testBit bit then
      if ¬ existing.testBit bit then
        achievedSpecLoop existing target fuel (bit + 1) (acc ||| 2 ^ bit)
      else acc
    else
      achievedSpecLoop existing target fuel (bit + 1) acc

/-- Modelled from the spec: the achieved value of the reference algorithm. -/
def achievedSpec (existing target : Nat) : Nat :=
  if existing = target then existing
  else achievedSpecLoop existing target 8 0 existing

lemma wpbLoop_simulate_eq_spec (burnOk : Nat → Bool) (existing target : Nat) :
    ∀ fuel bit acc, wpbLoop false burnOk existing target fuel bit acc =
      achievedSpecLoop existing target fuel bit acc := by
  intro fuel
  induction fuel with
  | zero => intro bit acc; rfl
  | succ n ih =>
    intro bit acc
    simp only [wpbLoop, achievedSpecLoop, false_and, if_false]
    split
    · split
      · exact ih (bit + 1) (acc ||| 2 ^ bit)
      · rfl
    · exact ih (bit + 1) acc

lemma wpbLoop_write_ok_eq_spec (existing target : Nat) :
    ∀ fuel bit acc, wpbLoop true (fun _ => true) existing target fuel bit acc =
      achievedSpecLoop existing target fuel bit acc := by
  intro fuel
  induction fuel with
  | zero => intro bit acc; rfl
  | succ n ih =>
    intro bit acc
    simp only [wpbLoop, achievedSpecLoop, not_true, and_false, if_false]
    split
    · split
      · exact ih (bit + 1) (acc ||| 2 ^ bit)
      · rfl
    · exact ih (bit + 1) acc

/-- C1: For every existing and target byte, the simulate-write result (for any
electrical outcome oracle) and the write result (when every burn verifies)
equal the spec's reference achieved value, and in particular simulating
existing = 0x02 against target = 0x01 yields 0x03. -/
theorem write_prom_byte_matches_spec (burnOk : Nat → Bool) (existing target : Nat) :
    write_prom_byte false burnOk existing target = achievedSpec existing target ∧
    write_prom_byte true (fun _ => true) existing target = achievedSpec existing target ∧
    write_prom_byte false burnOk 2 1 = 3 := by
  refine ⟨?_, ?_, ?_⟩
  · unfold write_prom_byte achievedSpec
    split
    · rfl
    · exact wpbLoop_simulate_eq_spec burnOk existing target 8 0 existing
  · unfold write_prom_byte achievedSpec
    split
    · rfl
    · exact wpbLoop_write_ok_eq_spec existing target 8 0 existing
  · show wpbLoop false burnOk 2 1 8 0 2 = 3
    rw [wpbLoop_simulate_eq_spec]
    decide

lemma wpbLoop_and_existing (doWrite : Bool) (burnOk : Nat → Bool) (existing target : Nat) :
    ∀ fuel bit acc, existing &&& acc = existing →
      existing &&& wpbLoop doWrite burnOk existing target fuel bit acc = existing := by
  intro fuel
  induction fuel with
  | zero => intro bit acc h; exact h
  | succ n ih =>
    intro bit acc h
    have hgrow : existing &&& (acc ||| 2 ^ bit) = existing := by
      rw [Nat.and_or_distrib_left, h]
      apply Nat.eq_of_testBit_eq
      intro j
      simp only [Nat.testBit_or, Nat.testBit_and]
      cases existing.testBit j <;> simp
    simp only [wpbLoop]
    split
    · split
      · split
        · exact h
        · exact ih (bit + 1) (acc ||| 2 ^ bit) hgrow
      · exact h
    · exact ih (bit + 1) acc h

/-- C10: the achieved value of a write or simulate-write never clears a bit of
the existing byte: existing AND achieved = existing, for every mode and every
electrical outcome of the burns. -/
theorem write_prom_byte_monotone (doWrite : Bool) (burnOk : Nat → Bool)
    (existing target : Nat) :
    existing &&& write_prom_byte doWrite burnOk existing target = existing := by
  unfold write_prom_byte
  split
  · exact Nat.and_self existing
  · exact wpbLoop_and_existing doWrite burnOk existing target 8 0 existing
      (Nat.and_self existing)

/-! ## Firmware: blank check (`exec_blank_check`)

`for ( address = 0; address < chip_sizes[chip]; ++address )` reads each cell
and breaks at the first nonzero byte; the address at which the loop stopped is
printed.  The chip contents are modelled as a function `mem` from addresses to
bytes. -/

/-- The scanning loop of `exec_blank_check`; `fuel` bounds the remaining
iterations (the caller passes `size`, enough for the whole scan) and the loop
condition `address < size` is the C one. -/
def blankCheckGo (mem : Nat → Nat) (size : Nat) : Nat → Nat → Nat
  | 0, address => address
  | fuel + 1, address =>
    if address < size then
      if mem address ≠ 0 then address
      else blankCheckGo mem size fuel (address + 1)
    else address

/-- The address printed by `exec_blank_check`. -/
def exec_blank_check (mem : Nat → Nat) (size : Nat) : Nat :=
  blankCheckGo mem size size 0

lemma blankCheckGo_spec (mem : Nat → Nat) (size : Nat) :
    ∀ fuel address, address ≤ size → size ≤ address + fuel →
      (blankCheckGo mem size fuel address = size ∨
        (blankCheckGo mem size fuel address < size ∧
          mem (blankCheckGo mem size fuel address) ≠ 0)) ∧
      address ≤ blankCheckGo mem size fuel address ∧
      (∀ b, address ≤ b → b < blankCheckGo mem size fuel address → mem b = 0) := by
  intro fuel
  induction fuel with
  | zero =>
    intro address h1 h2
    have heq : address = size := by omega
    have hgo : blankCheckGo mem size 0 address = address := rfl
    rw [hgo, heq]
    exact ⟨Or.inl rfl, le_refl _, fun b hb1 hb2 => absurd hb1 (by omega)⟩
  | succ n ih =>
    intro address h1 h2
    by_cases hlt : address < size
    · rw [blankCheckGo, if_pos hlt]
      by_cases hz : mem address ≠ 0
      · rw [if_pos hz]
        exact ⟨Or.inr ⟨hlt, hz⟩, le_refl _, fun b hb1 hb2 => absurd hb1 (by omega)⟩
      · rw [if_neg hz]
        push_neg at hz
        obtain ⟨g1, g2, g3⟩ := ih (address + 1) (by omega) (by omega)
        refine ⟨g1, by omega, ?_⟩
        intro b hb1 hb2
        rcases Nat.eq_or_lt_of_le hb1 with hb | hb
        · rw [← hb]; exact hz
        · exact g3 b hb hb2
    · rw [blankCheckGo, if_neg hlt]
      exact ⟨Or.inl (by omega), le_refl _, fun b hb1 hb2 => absurd hb1 (by omega)⟩

/-- C6: the blank-check scan returns the chip size exactly when every cell is
zero, and otherwise the address of the first nonzero cell; below the returned
address every cell is zero. -/
theorem exec_blank_check_spec (mem : Nat → Nat) (size : Nat) :
    (exec_blank_check mem size = size ↔ ∀ a, a < size → mem a = 0) ∧
    (exec_blank_check mem size < size →
      mem (exec_blank_check mem size) ≠ 0 ∧
        ∀ b, b < exec_blank_check mem size → mem b = 0) := by
  simp only [exec_blank_check]
  obtain ⟨h1, _, h3⟩ :=
    blankCheckGo_spec mem size size 0 (Nat.zero_le size) (by omega)
  constructor
  · constructor
    · intro heq a ha
      exact h3 a (Nat.zero_le a) (by omega)
    · intro hall
      rcases h1 with h | ⟨hlt, hnz⟩
      · exact h
      · exact absurd (hall _ hlt) hnz
  · intro hlt
    rcases h1 with h | ⟨_, hnz⟩
    · omega
    · exact ⟨hnz, fun b hb => h3 b (Nat.zero_le b) hb⟩

/-- Witness for C6: an all-zero 256-cell chip blank-checks to 0x100, and an
image whose first nonzero byte is at 0x060 stops there. -/
theorem exec_blank_check_spec_witness :
    exec_blank_check (fun _ => 0) 256 = 0x100 ∧
    exec_blank_check (fun a => if a < 0x60 then 0 else 0xFF) 256 = 0x060 := by
  constructor
  · exact (exec_blank_check_spec (fun _ => 0) 256).1.mpr (fun a _ => rfl)
  · have h := exec_blank_check_spec (fun a => if a < 0x60 then 0 else 0xFF) 256
    decide

end Prom

namespace Prom

/-! ## Firmware: command interpreter table (firmware sketch, `machine[]`)

The table-driven state machine: each rule is `(command-char, required-state,
handler, next-state)`.  The handlers are identified symbolically; the array's
`{ 0 }` terminator is the entry with command character `'\0'`.  The `TEST`
build flag is not defined, so the `'t'` rules are absent. -/

inductive state_t
  | ST_ANY | ST_READY | ST_WAIT_CHIP | ST_WAIT_ADDR | ST_WAIT_VALUE
  | ST_WAIT_TESTNO | ST_WAIT_TEST_PARAMS | ST_EXEC
deriving DecidableEq

inductive handler_t
  | get_command | get_chip | get_address | get_value
  | print_version | exec_read_prom | exec_blank_check | exec_read_prom_byte
  | exec_write_prom_byte | exec_simul_write_prom_byte
deriving DecidableEq

structure st_machine_t where
  command : Char
  state : state_t
  fn : handler_t
  next_state : state_t

/-- The rule table of the firmware, without its `{ 0 }` terminator. -/
def machine : List st_machine_t :=
  [ ⟨'*', .ST_READY, .get_command, .ST_WAIT_CHIP⟩,
    ⟨'V', .ST_ANY, .print_version, .ST_READY⟩,
    ⟨'R', .ST_WAIT_CHIP, .get_chip, .ST_EXEC⟩,
    ⟨'R', .ST_EXEC, .exec_read_prom, .ST_READY⟩,
    ⟨'K', .ST_WAIT_CHIP, .get_chip, .ST_EXEC⟩,
    ⟨'K', .ST_EXEC, .exec_blank_check, .ST_READY⟩,
    ⟨'r', .ST_WAIT_CHIP, .get_chip, .ST_WAIT_ADDR⟩,
    ⟨'r', .ST_WAIT_ADDR, .get_address, .ST_EXEC⟩,
    ⟨'r', .ST_EXEC, .exec_read_prom_byte, .ST_READY⟩,
    ⟨'w', .ST_WAIT_CHIP, .get_chip, .ST_WAIT_ADDR⟩,
    ⟨'w', .ST_WAIT_ADDR, .get_address, .ST_WAIT_VALUE⟩,
    ⟨'w', .ST_WAIT_VALUE, .get_value, .ST_EXEC⟩,
    ⟨'w', .ST_EXEC, .exec_write_prom_byte, .ST_READY⟩,
    ⟨'s', .ST_WAIT_CHIP, .get_chip, .ST_WAIT_ADDR⟩,
    ⟨'s', .ST_WAIT_ADDR, .get_address, .ST_WAIT_VALUE⟩,
    ⟨'s', .ST_WAIT_VALUE, .get_value, .ST_EXEC⟩,
    ⟨'s', .ST_EXEC, .exec_simul_write_prom_byte, .ST_READY⟩ ]

/-- The command characters of the rule array as laid out in memory: the rules
of `machine` followed by the `'\0'` of the `{ 0 }` terminator. -/
def machine_commands : List Char :=
  machine.map st_machine_t.command ++ [Char.ofNat 0]

/-- The lookup loop of `get_command`:
`for ( c = 0; machine[c].command != cmd_data->command; ++c ) ;`
stops at the first array slot whose command character equals the received
one.  `none` means the loop leaves the array (including its terminator)
without stopping — an out-of-bounds scan, i.e. undefined behavior in the C
program. -/
def get_command_scan (cmd : Char) : Option Nat :=
  machine_commands.findIdx? (fun c => c = cmd)

/-- C8 (code bug): for a command character that matches no rule and is not
`'\0'` — here `'x'` — the `get_command` lookup loop never stops inside the
rule array (terminator included), so it overruns the table; the sentinel
test `machine[c].command == '\0'` that was meant to emit the error status can
only stop the loop for the input character `'\0'` itself.  Known command
characters are found in bounds. -/
theorem get_command_scan_overruns_table :
    get_command_scan 'x' = none ∧
    (∀ i, i < machine_commands.length → machine_commands.get? i ≠ some 'x') ∧
    get_command_scan (Char.ofNat 0) = some machine.length ∧
    get_command_scan 'w' = some 9 ∧ get_command_scan 'V' = some 1 := by
  refine ⟨by decide, by decide, by decide, by decide, by decide⟩

/-! ## Firmware and host: version response (`VERSION`, `print_version`,
`command_init`)

The device answers `V` with `Serial.println( VERSION )` followed by the `R`
status line; the host's `command_init` requires the full response to be
exactly 12 bytes (`"V010000\r\nR\r\n"`) and parses a `V` prefix followed by
three two-digit decimal fields. -/

/-- The firmware's `VERSION` string. -/
def VERSION : String := "V010000"

/-- The payload line of the response to the version query: the line printed
by `print_version` before the status trailer. -/
def print_version_payload : String := VERSION

/-- The exact response byte count `command_init` requires
(`returned == 12`). -/
def command_init_expected_response_len : Nat := 12

/-- C9 counterexample: the payload line of the version response is not a
6-character string. -/
theorem print_version_payload_not_six_chars :
    ¬ (print_version_payload.length = 6) := by
  decide

/-- C9 (amended): the version payload line is the fixed 7-character string
`'V'` followed by a 6-character numeric version code, and the host checks the
full response (payload plus the two CRLF-terminated trailer lines) is exactly
12 bytes, which equals the payload length plus 5. -/
theorem print_version_payload_shape :
    print_version_payload.length = 7 ∧
    print_version_payload.toList.head? = some 'V' ∧
    (print_version_payload.toList.drop 1).length = 6 ∧
    (∀ c ∈ print_version_payload.toList.drop 1, c.isDigit) ∧
    command_init_expected_response_len = print_version_payload.length + 5 := by
  refine ⟨by decide, by decide, by decide, by decide, by decide⟩

end Prom

namespace Prom

/-! ## Host: command executor (`software/command.c`, `command_execute`)

`command_execute` walks the block list; for each block it iterates
`for ( loc = b->start; loc < end; ++loc )` with
`uint16_t end = b->start + b->count`.  Per address it checks the chip
capacity, sends the wire command (`command_fn` + `serial_write`), reads the
response and compares the returned value against the expected byte
`rw_buf[loc]`; any failure breaks out of both loops.  The serial transport
and response framing are external collaborators (spec §1) and are modelled as
reliable: the device's answer for an address is the oracle `device`, the
expected data is the oracle `expected`, and the model records the list of
addresses for which a wire command was written together with the error, if
any, that ended the operation. -/

/-- A `mem_block_t` of `files.h` (the `next` pointer becomes a list). -/
structure mem_block_t where
  start : Nat
  count : Nat
deriving DecidableEq

/-- The host's `chip_sizes[]` table. -/
def chip_sizes : List Nat := [256, 512]

/-- The two ways `command_execute`'s address loop can fail on data:
the capacity check `loc >= chip_sizes[chip]`, or a returned value different
from the expected byte (reported with the address, the observed and the
expected value). -/
inductive exec_err
  | capacity (addr : Nat)
  | mismatch (addr observed expected : Nat)
deriving DecidableEq

/-- The inner address loop of `command_execute` over `n` remaining addresses
starting at `loc`: returns the addresses for which a wire command was sent
and the error that stopped the loop, if any. -/
def execAddrs (chipSize : Nat) (expected device : Nat → Nat) : Nat → Nat → List Nat × Option exec_err
  | _, 0 => ([], none)
  | loc, n + 1 =>
    if chipSize ≤ loc then ([], some (.capacity loc))
    else if device loc ≠ expected loc then
      ([loc], some (.mismatch loc (device loc) (expected loc)))
    else
      let r := execAddrs chipSize expected device (loc + 1) n
      (loc :: r.1, r.2)

/-- The block loop of `command_execute`: the `uint16_t` end address of a block
is `(start + count) % 65536`, and a failure in a block stops the remaining
blocks. -/
def command_execute (chipSize : Nat) (expected device : Nat → Nat) :
    List mem_block_t → List Nat × Option exec_err
  | [] => ([], none)
  | b :: bs =>
    let endAddr := (b.start + b.count) % 65536
    let r := execAddrs chipSize expected device b.start (endAddr - b.start)
    match r.2 with
    | some e => (r.1, some e)
    | none =>
      let r' := command_execute chipSize expected device bs
      (r.1 ++ r'.1, r'.2)

/-- The addresses a block's loop would traverse. -/
def blockAddrs (b : mem_block_t) : List Nat :=
  List.range' b.start ((b.start + b.count) % 65536 - b.start)

/-- The traversal order of a whole block list. -/
def travAddrs (bs : List mem_block_t) : List Nat :=
  bs.flatMap blockAddrs

lemma execAddrs_all_ok (chipSize : Nat) (expected device : Nat → Nat) :
    ∀ n loc, (∀ x ∈ List.range' loc n, device x = expected x ∧ x < chipSize) →
      execAddrs chipSize expected device loc n = (List.range' loc n, none) := by
  intro n
  induction n with
  | zero => intro loc _; rfl
  | succ m ih =>
    intro loc h
    obtain ⟨hd, hlt⟩ := h loc (by simp [List.range'])
    rw [execAddrs, if_neg (by omega), if_neg (by simp [hd])]
    have := ih (loc + 1) (fun x hx => h x (by simp [List.range'] at hx ⊢; omega))
    simp only [List.range'] at *
    rw [this]

lemma execAddrs_first_mismatch (chipSize : Nat) (expected device : Nat → Nat) :
    ∀ n loc pre a rest, List.range' loc n = pre ++ a :: rest →
      (∀ x ∈ pre, device x = expected x ∧ x < chipSize) →
      a < chipSize → device a ≠ expected a →
      execAddrs chipSize expected device loc n =
        (pre ++ [a], some (.mismatch a (device a) (expected a))) := by
  intro n
  induction n with
  | zero =>
    intro loc pre a rest h
    exact absurd h (by simp [List.range'])
  | succ m ih =>
    intro loc pre a rest h hpre ha hne
    rw [List.range'] at h
    cases pre with
    | nil =>
      simp only [List.nil_append] at h ⊢
      obtain ⟨h1, _⟩ := List.cons.inj h
      subst h1
      rw [execAddrs, if_neg (by omega), if_pos hne]
    | cons x pre' =>
      obtain ⟨h1, h2⟩ := List.cons.inj (by simpa using h)
      subst h1
      obtain ⟨hd, hlt⟩ := hpre loc (by simp)
      rw [execAddrs, if_neg (by omega), if_neg (by simp [hd])]
      rw [ih (loc + 1) pre' a rest h2 (fun x hx => hpre x (by simp [hx])) ha hne]
      simp

/-- C4: if the traversal of the block list has a first address `a` whose
device-reported value differs from the expected byte (all earlier traversed
addresses agreeing and being within capacity), the multi-address operation
fails with a report naming `a`, the observed and the expected value, and the
wire commands sent are exactly those for the addresses up to and including
`a` — no later address of the current or of any remaining block is
attempted. -/
theorem command_execute_stops_at_first_mismatch (chipSize : Nat)
    (expected device : Nat → Nat) (blocks : List mem_block_t)
    (pre rest : List Nat) (a : Nat)
    (htrav : travAddrs blocks = pre ++ a :: rest)
    (hpre : ∀ x ∈ pre, device x = expected x ∧ x < chipSize)
    (ha : a < chipSize) (hne : device a ≠ expected a) :
    command_execute chipSize expected device blocks =
      (pre ++ [a], some (.mismatch a (device a) (expected a))) := by
  induction blocks generalizing pre with
  | nil => exact absurd htrav (by simp [travAddrs])
  | cons b bs ih =>
    rw [travAddrs, List.flatMap_cons] at htrav
    rcases List.append_eq_append_iff.mp htrav with ⟨t, hbt, htv⟩ | ⟨c, hbc, hcv⟩
    · -- the current block is a prefix of the mismatch-free addresses
      have hok : ∀ x ∈ blockAddrs b, device x = expected x ∧ x < chipSize :=
        fun x hx => hpre x (by rw [hbt]; exact List.mem_append_left _ hx)
      rw [command_execute]
      rw [blockAddrs] at hok
      rw [execAddrs_all_ok chipSize expected device _ _ hok]
      simp only
      rw [ih t htv (fun x hx => hpre x (by rw [hbt]; exact List.mem_append_right _ hx))]
      rw [hbt, blockAddrs]
      simp [List.append_assoc]
    · -- the first mismatch lies inside the current block (or c = [])
      cases c with
      | nil =>
        simp only [List.append_nil] at hbc
        have hok : ∀ x ∈ blockAddrs b, device x = expected x ∧ x < chipSize :=
          fun x hx => hpre x (by rw [hbc] at hx; exact hx)
        rw [command_execute]
        rw [blockAddrs] at hok
        rw [execAddrs_all_ok chipSize expected device _ _ hok]
        simp only
        simp only [blockAddrs] at hbc
        rw [ih [] (by simpa using hcv.symm) (by simp)]
        simp [hbc]
      | cons a' c' =>
        obtain ⟨h1, h2⟩ := List.cons.inj hcv
        subst h1
        rw [command_execute]
        rw [execAddrs_first_mismatch chipSize expected device _ _ pre a c' (by rw [← hbc, blockAddrs]) hpre ha hne]

/-- Witness for C4: on a ten-address block whose third address disagrees, the
operation stops there, reports address, observed and expected value, and
sends exactly three wire commands. -/
theorem command_execute_stops_at_first_mismatch_witness :
    command_execute 256 (fun _ => 0) (fun a => if a = 2 then 5 else 0) [⟨0, 10⟩] =
      ([0, 1, 2], some (.mismatch 2 5 0)) := by
  have h := command_execute_stops_at_first_mismatch 256 (fun _ => 0)
    (fun a => if a = 2 then 5 else 0) [⟨0, 10⟩] [0, 1] [3, 4, 5, 6, 7, 8, 9] 2
    (by decide) (by decide) (by decide) (by decide)
  simpa using h

end Prom

namespace Prom

/-! ## Host: binary file input (`software` binary codec, `bin_read`)

`bin_read` stores the `ftell` file size into `b->count`, whose type in
`mem_block_t` (`files.h`) is `uint16_t`, so the size is truncated mod 2^16
before the check `b->count > size || b->count == 0` (the caller,
`command_execute`, passes `size = sizeof( rw_buf ) == 4096`); on success the
single block `{ start = 0, count }` is returned with the first `count` file
bytes loaded at offset 0. -/

/-- The size of the host's `rw_buf` transfer buffer. -/
def RW_BUF_SIZE : Nat := 4096

/-- The block list produced by `bin_read` for a file of the given byte
content: the block count is the file length truncated to 16 bits
(`b->count` is a `uint16_t`); `none` is the `FAILURE` of the size check,
otherwise the single block starting at address 0. -/
def bin_read (content : List Nat) (bufsize : Nat) : Option mem_block_t :=
  if content.length % 65536 > bufsize ∨ content.length % 65536 = 0 then none
  else some ⟨0, content.length % 65536⟩

/-- C5 counterexample: a 257-byte binary file for the 256-cell chip is
accepted by `bin_read` (257 ≤ 4096), and the write's `command_execute` then
sends wire commands for all 256 in-range addresses before failing with the
capacity error at address 0x100 — the operation fails, but not before wire
traffic.  A 65537-byte file is even accepted outright: its `uint16_t` block
count wraps to 1, and a wire command is sent for address 0 with no failure
at all. -/
theorem command_execute_oversize_file_sends_wire_commands :
    bin_read (List.replicate 257 0) RW_BUF_SIZE = some ⟨0, 257⟩ ∧
    (command_execute 256 (fun _ => 0) (fun _ => 0) [⟨0, 257⟩]).2 =
      some (.capacity 256) ∧
    (command_execute 256 (fun _ => 0) (fun _ => 0) [⟨0, 257⟩]).1 ≠ [] ∧
    bin_read (List.replicate 65537 0) RW_BUF_SIZE = some ⟨0, 1⟩ ∧
    command_execute 256 (fun _ => 0) (fun _ => 0) [⟨0, 1⟩] = ([0], none) := by
  have h : command_execute 256 (fun _ => 0) (fun _ => 0) [⟨0, 257⟩] =
      (List.range' 0 256, some (.capacity 256)) := by decide
  refine ⟨?_, ?_, ?_, ?_, ?_⟩
  · simp only [bin_read, List.length_replicate, RW_BUF_SIZE]
    norm_num
  · rw [h]
  · rw [h]
    simp
  · simp only [bin_read, List.length_replicate, RW_BUF_SIZE]
    norm_num
  · decide

lemma execAddrs_capacity (chipSize : Nat) (expected device : Nat → Nat) :
    ∀ n loc, loc ≤ chipSize → chipSize < loc + n →
      (∀ x, loc ≤ x → x < chipSize → device x = expected x) →
      execAddrs chipSize expected device loc n =
        (List.range' loc (chipSize - loc), some (.capacity chipSize)) := by
  intro n
  induction n with
  | zero => intro loc h1 h2; omega
  | succ m ih =>
    intro loc h1 h2 hok
    by_cases hlt : loc < chipSize
    · rw [execAddrs, if_neg (by omega), if_neg (by simp [hok loc (le_refl loc) hlt])]
      rw [ih (loc + 1) (by omega) (by omega) (fun x hx => hok x (by omega))]
      have : chipSize - loc = (chipSize - (loc + 1)) + 1 := by omega
      rw [this, List.range'_succ]
    · have : loc = chipSize := by omega
      subst this
      rw [execAddrs, if_pos (le_refl _)]
      simp

/-- C5 (amended): `bin_read` truncates the file size to the 16-bit block
count and rejects the file before any wire command only when that wrapped
count exceeds the host's 4096-byte transfer buffer or is zero; a file whose
accepted count exceeds the chip's cell count is not pre-rejected —
`command_execute` sends a wire command for every address below the cell
count (none of which mismatches here) and only then fails, with the capacity
error at the first address equal to the cell count. -/
theorem command_execute_capacity_behaviour (content : List Nat)
    (chipSize n : Nat) (expected device : Nat → Nat)
    (hbig : content.length % 65536 > RW_BUF_SIZE)
    (hn : chipSize < n) (hn2 : n < 65536)
    (hok : ∀ x, x < chipSize → device x = expected x) :
    bin_read content RW_BUF_SIZE = none ∧
    command_execute chipSize expected device [⟨0, n⟩] =
      (List.range' 0 chipSize, some (.capacity chipSize)) := by
  constructor
  · rw [bin_read, if_pos (Or.inl hbig)]
  · rw [command_execute]
    have hmod : (0 + n) % 65536 = n := by
      simp [Nat.mod_eq_of_lt hn2]
    simp only [hmod]
    rw [execAddrs_capacity chipSize expected device (n - 0) 0 (by omega) (by omega)
      (fun x _ hx => hok x hx)]
    simp

/-- Witness for C5's amended statement at a 5-byte file and a 3-cell chip. -/
theorem command_execute_capacity_behaviour_witness :
    bin_read (List.replicate 4097 0) RW_BUF_SIZE = none ∧
    command_execute 3 (fun _ => 0) (fun _ => 0) [⟨0, 5⟩] =
      (List.range' 0 3, some (.capacity 3)) := by
  exact command_execute_capacity_behaviour (List.replicate 4097 0) 3 5
    (fun _ => 0) (fun _ => 0) (by simp only [List.length_replicate, RW_BUF_SIZE]; norm_num)
    (by decide) (by decide)
    (fun x _ => rfl)

end Prom

namespace Prom

/-! ## Host: Intel-HEX codec (`ihex.c`)

The decoder processes the file line by line (`fgets` + `ihex_read_record`);
a line is a `List Char` (the terminating newline plays no role in any check:
a full record has at least its 11 + 2·count significant characters either
way).  The shared hex-scanning primitives `hexvalue`, `get_hexnum`,
`get_hexbyte`/`get_hexword` and the per-record state `hexfile_t` are modelled
field by field; `hexfile_t.buffer` is a function from addresses to bytes and
the `blocks` pointer chain is a list.  Error returns carry the line number
printed by the corresponding `fprintf( stderr, ... at line %d )`;
`bad_end_record` is the silent `return FAILURE` for a zero-count record that
is not `:00000001FF`, and `unexpected_end` the `"Unexpected end of hex
file"` failure of `ihex_read`. -/

/-- `isdigit` of ctype for the characters fed to `hexvalue`. -/
def isdigitChar (c : Char) : Bool := '0' ≤ c && c ≤ '9'

/-- `isxdigit` of ctype. -/
def isxdigitChar (c : Char) : Bool :=
  isdigitChar c || ('A' ≤ c && c ≤ 'F') || ('a' ≤ c && c ≤ 'f')

/-- `isspace` of ctype (the characters `fgets` can leave around records). -/
def isspaceChar (c : Char) : Bool :=
  c = ' ' || c = '\t' || c = '\n' || c = '\x0b' || c = '\x0c' || c = '\r'

/-- `hexvalue`: note that the non-digit branch subtracts `'A'` from the
original character `digit`, not from its uppercased copy `c`; for a lowercase
digit this yields a value ≥ 42 whose low nibble (the caller masks with `0xF`)
is nevertheless the right one. -/
def hexvalue (digit : Char) : Nat :=
  let c := digit.toUpper
  if isdigitChar c then digit.toNat - '0'.toNat
  else digit.toNat - 'A'.toNat + 10

/-- The digit loop of `get_hexnum`: with `k + 1` digits still to read, the
current digit is shifted by `base16[4 - len + pos] = 4 * k` and masked, and
or-ed into `result`; a non-hex digit aborts with `-1`. -/
def getHexnumGo : Nat → List Char → Nat → Int
  | 0, _, result => Int.ofNat result
  | _ + 1, [], _ => -1
  | k + 1, c :: cs, result =>
    if isxdigitChar c then
      getHexnumGo k cs (result ||| ((hexvalue c &&& 0xF) <<< (4 * k)))
    else -1

/-- `get_hexnum( len, s )`: `-1` when the string is shorter than `len` or a
non-hex character appears among the first `len`. -/
def get_hexnum (len : Nat) (s : List Char) : Int :=
  if s.length < len then -1 else getHexnumGo len s 0

/-- `get_byte( buffer, index, value )`: reads two hex digits of `line` at
`idx` and advances the index. -/
def get_byte (line : List Char) (idx : Nat) : Option (Nat × Nat) :=
  let r := get_hexnum 2 (line.drop idx)
  if r < 0 then none else some (r.toNat, idx + 2)

/-- `get_word( buffer, index, value )`: four hex digits. -/
def get_word (line : List Char) (idx : Nat) : Option (Nat × Nat) :=
  let r := get_hexnum 4 (line.drop idx)
  if r < 0 then none else some (r.toNat, idx + 4)

/-- The decoder state `hexfile_t` (`start_char` is always `':'`, and the
line buffer and index are handled functionally). -/
structure hexfile_t where
  buffer : Nat → Nat
  buffer_size : Nat
  current_addr : Int
  lines : Nat
  blocks : List mem_block_t
  complete : Bool

/-- The failure modes of the decoder, each with the line number its error
message prints (`bad_end_record` is the silent failure, `unexpected_end`
carries no line). -/
inductive hex_err
  | bad_start (line : Nat)
  | bad_count (line : Nat)
  | line_too_short (line : Nat)
  | bad_end_record
  | bad_addr (line : Nat)
  | bad_type (line : Nat)
  | bad_byte (line : Nat)
  | no_checksum (line : Nat)
  | bad_checksum (line : Nat)
  | unexpected_end
deriving DecidableEq

/-- `(uint8_t)( ~checksum + 1 )`: the 8-bit two's-complement negation of the
running 16-bit checksum accumulator. -/
def negByte (s : Nat) : Nat := (256 - s % 256) % 256

/-- `hex->blocks->count += n` on the head block (`n = 1` per data byte in the
C loop; the list is never empty when the C code executes it). -/
def bumpHead (n : Nat) : List mem_block_t → List mem_block_t
  | [] => []
  | b :: bs => ⟨b.start, b.count + n⟩ :: bs

/-- `buffer[ cur++ ] = b` for each byte of the list. -/
def writeBytes (buf : Nat → Nat) (cur : Nat) : List Nat → (Nat → Nat)
  | [] => buf
  | b :: bs => writeBytes (updFn buf cur b) (cur + 1) bs

/-- The `for ( nbytes = 0; nbytes < line_bytes; ++nbytes )` data loop of
`ihex_read_record`: reads one byte at a time, stores it at the current
address, counts it in the head block and adds it to the checksum. -/
def readDataLoop (line : List Char) :
    Nat → (Nat → Nat) → Nat → List mem_block_t → Nat → Nat →
    Option ((Nat → Nat) × Nat × List mem_block_t × Nat × Nat)
  | 0, buf, cur, blocks, acc, idx => some (buf, cur, blocks, acc, idx)
  | k + 1, buf, cur, blocks, acc, idx =>
    match get_byte line idx with
    | none => none
    | some (b, idx') =>
      readDataLoop line k (updFn buf cur b) (cur + 1) (bumpHead 1 blocks) (acc + b) idx'

/-- `ihex_read_record`, step by step as in the C source (`line.head?` is the
first buffer character, `none` standing for the `'\0'` of an empty line). -/
def ihex_read_record (hex : hexfile_t) (line : List Char) : Except hex_err hexfile_t :=
  let n := hex.lines + 1
  if line.head? ≠ some ':' then .error (.bad_start n)
  else
      match get_byte line 1 with
      | none => .error (.bad_count n)
      | some (line_bytes, idx1) =>
        if line.length < 11 + 2 * line_bytes then .error (.line_too_short n)
        else if line_bytes = 0 then
          if line.take 11 = (":00000001FF").toList then
            .ok ⟨hex.buffer, hex.buffer_size, hex.current_addr, n, hex.blocks, true⟩
          else .error .bad_end_record
        else
          match get_word line idx1 with
          | none => .error (.bad_addr n)
          | some (load_address, idx2) =>
            if hex.buffer_size ≤ load_address then .error (.bad_addr n)
            else
              match get_byte line idx2 with
              | none => .error (.bad_type n)
              | some (record_type, idx3) =>
                if record_type ≠ 0 then .error (.bad_type n)
                else
                  let blocks1 := if (load_address : Int) ≠ hex.current_addr
                    then (⟨load_address, 0⟩ : mem_block_t) :: hex.blocks
                    else hex.blocks
                  let acc0 := line_bytes + ((load_address >>> 8) &&& 0xFF) +
                    (load_address &&& 0xFF)
                  match readDataLoop line line_bytes hex.buffer load_address blocks1 acc0 idx3 with
                  | none => .error (.bad_byte n)
                  | some (buf, cur, blocks2, acc, idx4) =>
                    match get_byte line idx4 with
                    | none => .error (.no_checksum n)
                    | some (checksum, _) =>
                      if checksum ≠ negByte acc then .error (.bad_checksum n)
                      else .ok ⟨buf, hex.buffer_size, (cur : Int), n, blocks2, hex.complete⟩

/-- The `while ( fgets( ... ) > 0 )` loop of `ihex_read` over the file's
lines, stopping at the first failed record. -/
def ihex_loop (hex : hexfile_t) : List (List Char) → Except hex_err hexfile_t
  | [] => .ok hex
  | l :: ls =>
    match ihex_read_record hex l with
    | .error e => .error e
    | .ok hex' => ihex_loop hex' ls

/-- The outcome of `ihex_read`: on success the final state; on failure the
error and the block list stored into `*blocks` (empty when a record failed,
because `files_free_blocks` ran; the accumulated blocks when the file ended
without the terminating record). -/
inductive read_result
  | ok (hex : hexfile_t)
  | fail (e : hex_err) (blocks : List mem_block_t)

/-- The tail of `ihex_read` after the state is initialised: run the line
loop, free the blocks if a record failed, and fail with `unexpected_end`
(handing back `hex.blocks`) if the terminating record never came. -/
def ihex_run (hex : hexfile_t) (ls : List (List Char)) : read_result :=
  match ihex_loop hex ls with
  | .error e => .fail e []
  | .ok hex' => if hex'.complete then .ok hex' else .fail .unexpected_end hex'.blocks

/-- `ihex_read( filename, data, size, blocks )` on the file's lines, with the
initial state `{ start_char = ':', buffer = data, buffer_size = size,
current_addr = -1 }`. -/
def ihex_read (data : Nat → Nat) (size : Nat) (ls : List (List Char)) : read_result :=
  ihex_run ⟨data, size, -1, 0, [], false⟩ ls

end Prom

namespace Prom

/-! ## Host: Intel-HEX encoder (`ihex_write`)

`ihex_write` walks the `size` bytes of `data`, starting a fresh record every
`INTEL_WRITE_BYTES_PER_LINE` bytes: each record carries
`min( 32, size - byte_num )` bytes, the current `(uint16_t) base_addr` as its
load address, record type `00`, and the two's-complement checksum
(`fprintf( "%2.2X", ... )` prints two uppercase hex digits); the file ends
with the `:00000001FF` record.  The loop is modelled one record (chunk) at a
time; for `size = 0` the C code still prints a stray `"00"` checksum line,
so the encoding theorems assume `0 < size`. -/

/-- `INTEL_WRITE_BYTES_PER_LINE`. -/
def INTEL_WRITE_BYTES_PER_LINE : Nat := 32

/-- One uppercase hex digit as printed by `%X`. -/
def hexDigit (v : Nat) : Char :=
  if v < 10 then Char.ofNat ('0'.toNat + v) else Char.ofNat ('A'.toNat + v - 10)

/-- `%2.2X` of a byte. -/
def encodeByte (b : Nat) : List Char :=
  [hexDigit (b / 16 % 16), hexDigit (b % 16)]

/-- `%4.4X` of a 16-bit word. -/
def encodeWord (w : Nat) : List Char :=
  [hexDigit (w / 4096 % 16), hexDigit (w / 256 % 16), hexDigit (w / 16 % 16), hexDigit (w % 16)]

/-- A data record line: `':'`, byte count, load address, record type `00`,
the data bytes, and a trailing checksum byte `ck`. -/
def mkDataLine (count addr : Nat) (bytes : List Nat) (ck : Nat) : List Char :=
  ':' :: (encodeByte count ++ (encodeWord addr ++ (encodeByte 0 ++
    (bytes.flatMap encodeByte ++ encodeByte ck))))

/-- The checksum accumulator a record's fields produce: byte count, high and
low address byte, and the sum of the data bytes. -/
def recordSum (count addr : Nat) (bytes : List Nat) : Nat :=
  count + ((addr >>> 8) &&& 0xFF) + (addr &&& 0xFF) + bytes.sum

/-- The record `ihex_write` emits for the chunk of `n` bytes at offset `pos`
of `data`, encoded for base address `base`. -/
def ihexChunkLine (data : Nat → Nat) (base pos n : Nat) : List Char :=
  mkDataLine n ((base + pos) % 65536) ((List.range' pos n).map data)
    (negByte (recordSum n ((base + pos) % 65536) ((List.range' pos n).map data)))

/-- The record loop of `ihex_write`: one chunk of
`min( INTEL_WRITE_BYTES_PER_LINE, size - pos )` bytes per iteration (`fuel`
is an upper bound on the number of records; each consumes at least one
byte). -/
def ihexChunks (data : Nat → Nat) (size base : Nat) : Nat → Nat → List (List Char)
  | 0, _ => []
  | fuel + 1, pos =>
    if pos < size then
      let n := min INTEL_WRITE_BYTES_PER_LINE (size - pos)
      ihexChunkLine data base pos n :: ihexChunks data size base fuel (pos + n)
    else []

/-- The lines of the file `ihex_write( filename, data, size, base_addr )`
produces: the data records followed by the `:00000001FF` end record. -/
def ihex_write_lines (data : Nat → Nat) (size base : Nat) : List (List Char) :=
  ihexChunks data size base size 0 ++ [(":00000001FF").toList]

/-- An address is covered by a block list when some block contains it. -/
def coveredBy (blocks : List mem_block_t) (a : Nat) : Prop :=
  ∃ b ∈ blocks, b.start ≤ a ∧ a < b.start + b.count

end Prom

namespace Prom

/-! ## Intel-HEX: parsing the encoder's output -/

lemma isxdigit_hexDigit {v : Nat} (hv : v < 16) : isxdigitChar (hexDigit v) = true := by
  have h : ∀ x : Fin 16, isxdigitChar (hexDigit x.val) = true := by decide
  exact h ⟨v, hv⟩

lemma hexvalue_hexDigit {v : Nat} (hv : v < 16) : hexvalue (hexDigit v) &&& 0xF = v := by
  have h : ∀ x : Fin 16, hexvalue (hexDigit x.val) &&& 0xF = x.val := by decide
  exact h ⟨v, hv⟩

lemma shiftLeft_or_val (k hi lo : Nat) (hlo : lo < 2 ^ k) :
    (hi <<< k) ||| lo = 2 ^ k * hi + lo := by
  rw [Nat.shiftLeft_eq, Nat.mul_comm hi (2 ^ k), Nat.mul_add_lt_is_or hlo hi]

lemma get_hexnum_encodeByte (b : Nat) (hb : b < 256) (rest : List Char) :
    get_hexnum 2 (encodeByte b ++ rest) = Int.ofNat b := by
  have h1 := isxdigit_hexDigit (v := b / 16 % 16) (by omega)
  have h0 := isxdigit_hexDigit (v := b % 16) (by omega)
  have v1 := hexvalue_hexDigit (v := b / 16 % 16) (by omega)
  have v0 := hexvalue_hexDigit (v := b % 16) (by omega)
  rw [encodeByte, List.cons_append, List.cons_append, List.nil_append]
  rw [get_hexnum, if_neg (by simp)]
  rw [getHexnumGo, if_pos h1, getHexnumGo, if_pos h0, getHexnumGo, v1, v0]
  congr 1
  rw [Nat.zero_or, Nat.mul_zero, Nat.shiftLeft_zero, Nat.mul_one]
  rw [shiftLeft_or_val 4 (b / 16 % 16) (b % 16) (by omega)]
  norm_num
  omega

lemma get_hexnum_encodeWord (w : Nat) (hw : w < 65536) (rest : List Char) :
    get_hexnum 4 (encodeWord w ++ rest) = Int.ofNat w := by
  have h3 := isxdigit_hexDigit (v := w / 4096 % 16) (by omega)
  have h2 := isxdigit_hexDigit (v := w / 256 % 16) (by omega)
  have h1 := isxdigit_hexDigit (v := w / 16 % 16) (by omega)
  have h0 := isxdigit_hexDigit (v := w % 16) (by omega)
  have v3 := hexvalue_hexDigit (v := w / 4096 % 16) (by omega)
  have v2 := hexvalue_hexDigit (v := w / 256 % 16) (by omega)
  have v1 := hexvalue_hexDigit (v := w / 16 % 16) (by omega)
  have v0 := hexvalue_hexDigit (v := w % 16) (by omega)
  rw [encodeWord, List.cons_append, List.cons_append, List.cons_append,
    List.cons_append, List.nil_append]
  rw [get_hexnum, if_neg (by simp)]
  rw [getHexnumGo, if_pos h3, getHexnumGo, if_pos h2, getHexnumGo, if_pos h1,
    getHexnumGo, if_pos h0, getHexnumGo, v3, v2, v1, v0]
  congr 1
  rw [Nat.zero_or, Nat.shiftLeft_zero]
  rw [show 4 * 3 = 12 from rfl, show 4 * 2 = 8 from rfl, show 4 * 1 = 4 from rfl]
  rw [show (w / 4096 % 16) <<< 12 = 2 ^ 12 * (w / 4096 % 16) from by
    rw [Nat.shiftLeft_eq]; ring]
  rw [show (w / 256 % 16) <<< 8 = 2 ^ 8 * (w / 256 % 16) from by
    rw [Nat.shiftLeft_eq]; ring]
  rw [show (w / 16 % 16) <<< 4 = 2 ^ 4 * (w / 16 % 16) from by
    rw [Nat.shiftLeft_eq]; ring]
  rw [show (2 ^ 12 * (w / 4096 % 16)) ||| (2 ^ 8 * (w / 256 % 16)) =
      2 ^ 12 * (w / 4096 % 16) + 2 ^ 8 * (w / 256 % 16) from
    (Nat.mul_add_lt_is_or (by omega) _).symm]
  rw [show 2 ^ 12 * (w / 4096 % 16) + 2 ^ 8 * (w / 256 % 16) =
      2 ^ 8 * (2 ^ 4 * (w / 4096 % 16) + (w / 256 % 16)) from by ring]
  rw [show (2 ^ 8 * (2 ^ 4 * (w / 4096 % 16) + w / 256 % 16)) ||| (2 ^ 4 * (w / 16 % 16)) =
      2 ^ 8 * (2 ^ 4 * (w / 4096 % 16) + w / 256 % 16) + 2 ^ 4 * (w / 16 % 16) from
    (Nat.mul_add_lt_is_or (by omega) _).symm]
  rw [show 2 ^ 8 * (2 ^ 4 * (w / 4096 % 16) + w / 256 % 16) + 2 ^ 4 * (w / 16 % 16) =
      2 ^ 4 * (2 ^ 4 * (2 ^ 4 * (w / 4096 % 16) + w / 256 % 16) + w / 16 % 16) from by ring]
  rw [show (2 ^ 4 * (2 ^ 4 * (2 ^ 4 * (w / 4096 % 16) + w / 256 % 16) + w / 16 % 16)) ||| (w % 16) =
      2 ^ 4 * (2 ^ 4 * (2 ^ 4 * (w / 4096 % 16) + w / 256 % 16) + w / 16 % 16) + w % 16 from
    (Nat.mul_add_lt_is_or (by omega) _).symm]
  norm_num
  omega

lemma get_byte_encode {line : List Char} {idx : Nat} {b : Nat} (hb : b < 256)
    {rest : List Char} (h : line.drop idx = encodeByte b ++ rest) :
    get_byte line idx = some (b, idx + 2) := by
  rw [get_byte, h, get_hexnum_encodeByte b hb rest]
  simp

lemma get_word_encode {line : List Char} {idx : Nat} {w : Nat} (hw : w < 65536)
    {rest : List Char} (h : line.drop idx = encodeWord w ++ rest) :
    get_word line idx = some (w, idx + 4) := by
  rw [get_word, h, get_hexnum_encodeWord w hw rest]
  simp

end Prom

namespace Prom

lemma getHexnumGo_bound :
    ∀ (k : Nat) (s : List Char) (acc N : Nat), 4 * k ≤ N → acc < 2 ^ N →
      ∀ r : Nat, getHexnumGo k s acc = Int.ofNat r → r < 2 ^ N := by
  intro k
  induction k with
  | zero =>
    intro s acc N _ hacc r h
    rw [getHexnumGo] at h
    have : acc = r := Int.ofNat.inj h
    omega
  | succ m ih =>
    intro s acc N h4 hacc r h
    cases s with
    | nil => rw [getHexnumGo] at h; exact absurd h (by simp)
    | cons c cs =>
      rw [getHexnumGo] at h
      by_cases hc : isxdigitChar c = true
      · rw [if_pos hc] at h
        refine ih cs _ N (by omega) ?_ r h
        apply Nat.or_lt_two_pow hacc
        have ha : hexvalue c &&& 0xF < 2 ^ 4 := Nat.and_lt_two_pow _ (by norm_num)
        have hs : (hexvalue c &&& 0xF) <<< (4 * m) < 2 ^ (4 + 4 * m) :=
          Nat.shiftLeft_lt ha
        calc (hexvalue c &&& 0xF) <<< (4 * m) < 2 ^ (4 + 4 * m) := hs
          _ ≤ 2 ^ N := Nat.pow_le_pow_right (by norm_num) (by omega)
      · rw [if_neg hc] at h
        exact absurd h (by simp)

lemma get_byte_bound {line : List Char} {idx b j : Nat}
    (h : get_byte line idx = some (b, j)) : b < 256 ∧ j = idx + 2 := by
  rw [get_byte] at h
  by_cases hr : get_hexnum 2 (line.drop idx) < 0
  · rw [if_pos hr] at h; exact absurd h (by simp)
  · rw [if_neg hr] at h
    obtain ⟨h1, h2⟩ := Option.some.inj h |> Prod.mk.inj
    push_neg at hr
    refine ⟨?_, h2.symm⟩
    have hofnat : get_hexnum 2 (line.drop idx) =
        Int.ofNat (get_hexnum 2 (line.drop idx)).toNat := by
      exact_mod_cast (Int.toNat_of_nonneg hr).symm
    rw [get_hexnum] at hofnat
    by_cases hl : (line.drop idx).length < 2
    · rw [if_pos hl] at hofnat
      exact absurd hofnat (by simp)
    · rw [if_neg hl] at hofnat
      have := getHexnumGo_bound 2 (line.drop idx) 0 8 (by omega) (by norm_num) _ hofnat
      rw [get_hexnum, if_neg hl] at h1
      omega

lemma bumpHead_add (m n : Nat) (bs : List mem_block_t) :
    bumpHead m (bumpHead n bs) = bumpHead (n + m) bs := by
  cases bs with
  | nil => rfl
  | cons b t => simp [bumpHead, Nat.add_assoc]

lemma bumpHead_zero (bs : List mem_block_t) : bumpHead 0 bs = bs := by
  cases bs with
  | nil => rfl
  | cons b t => simp [bumpHead]

lemma flatMap_encodeByte_length (bs : List Nat) :
    (bs.flatMap encodeByte).length = 2 * bs.length := by
  induction bs with
  | nil => rfl
  | cons b t ih =>
    rw [List.flatMap_cons, List.length_append, ih]
    simp [encodeByte]
    ring

lemma readDataLoop_encode (line : List Char) :
    ∀ (bs : List Nat) (buf : Nat → Nat) (cur : Nat) (blocks : List mem_block_t)
      (acc idx : Nat) (tail : List Char),
      line.drop idx = bs.flatMap encodeByte ++ tail →
      (∀ b ∈ bs, b < 256) →
      readDataLoop line bs.length buf cur blocks acc idx =
        some (writeBytes buf cur bs, cur + bs.length, bumpHead bs.length blocks,
          acc + bs.sum, idx + 2 * bs.length) := by
  intro bs
  induction bs with
  | nil =>
    intro buf cur blocks acc idx tail h hb
    simp [readDataLoop, writeBytes, bumpHead_zero]
  | cons b bs' ih =>
    intro buf cur blocks acc idx tail h hb
    have hb0 : b < 256 := hb b (by simp)
    have hdrop : line.drop idx = encodeByte b ++ (bs'.flatMap encodeByte ++ tail) := by
      rw [h, List.flatMap_cons, List.append_assoc]
    have hg := get_byte_encode hb0 hdrop
    have hdrop2 : line.drop (idx + 2) = bs'.flatMap encodeByte ++ tail := by
      rw [← List.drop_drop 2 idx line, hdrop]
      simp [encodeByte]
    rw [show (b :: bs').length = bs'.length + 1 from rfl, readDataLoop, hg]
    show readDataLoop line bs'.length (updFn buf cur b) (cur + 1) (bumpHead 1 blocks)
      (acc + b) (idx + 2) = _
    rw [ih (updFn buf cur b) (cur + 1) (bumpHead 1 blocks) (acc + b) (idx + 2) tail hdrop2
      (fun x hx => hb x (by simp [hx]))]
    simp only [Option.some.injEq, Prod.mk.injEq, List.sum_cons]
    refine ⟨rfl, by omega, ?_, by omega, by omega⟩
    rw [bumpHead_add, Nat.add_comm]

end Prom

namespace Prom

lemma mkDataLine_length (count addr : Nat) (bytes : List Nat) (ck : Nat)
    (hlen : bytes.length = count) :
    (mkDataLine count addr bytes ck).length = 11 + 2 * count := by
  rw [mkDataLine]
  simp only [List.length_cons, List.length_append, List.length_nil,
    flatMap_encodeByte_length, hlen, encodeByte, encodeWord]
  omega

lemma ihex_read_record_data (hex : hexfile_t) (count addr : Nat) (bytes : List Nat)
    (ck : Nat) (hlen : bytes.length = count) (h0 : 0 < count) (hc : count < 256)
    (haddr16 : addr < 65536) (haddr : addr < hex.buffer_size)
    (hbytes : ∀ b ∈ bytes, b < 256) (hck : ck < 256) :
    ihex_read_record hex (mkDataLine count addr bytes ck) =
      if ck = negByte (recordSum count addr bytes) then
        .ok ⟨writeBytes hex.buffer addr bytes, hex.buffer_size, ((addr + count : Nat) : Int),
          hex.lines + 1,
          bumpHead count (if (addr : Int) ≠ hex.current_addr
            then (⟨addr, 0⟩ : mem_block_t) :: hex.blocks else hex.blocks),
          hex.complete⟩
      else .error (.bad_checksum (hex.lines + 1)) := by
  have hdrop1 : (mkDataLine count addr bytes ck).drop 1 =
      encodeByte count ++ (encodeWord addr ++ (encodeByte 0 ++
        (bytes.flatMap encodeByte ++ encodeByte ck))) := rfl
  have hget1 : get_byte (mkDataLine count addr bytes ck) 1 = some (count, 3) :=
    get_byte_encode hc hdrop1
  have hdrop3 : (mkDataLine count addr bytes ck).drop 3 =
      encodeWord addr ++ (encodeByte 0 ++ (bytes.flatMap encodeByte ++ encodeByte ck)) := by
    rw [← List.drop_drop 2 1 (mkDataLine count addr bytes ck), hdrop1]
    simp [encodeByte]
  have hget3 : get_word (mkDataLine count addr bytes ck) 3 = some (addr, 7) :=
    get_word_encode haddr16 hdrop3
  have hdrop7 : (mkDataLine count addr bytes ck).drop 7 =
      encodeByte 0 ++ (bytes.flatMap encodeByte ++ encodeByte ck) := by
    rw [← List.drop_drop 4 3 (mkDataLine count addr bytes ck), hdrop3]
    simp [encodeWord]
  have hget7 : get_byte (mkDataLine count addr bytes ck) 7 = some (0, 9) :=
    get_byte_encode (by norm_num) hdrop7
  have hdrop9 : (mkDataLine count addr bytes ck).drop 9 =
      bytes.flatMap encodeByte ++ encodeByte ck := by
    rw [← List.drop_drop 2 7 (mkDataLine count addr bytes ck), hdrop7]
    simp [encodeByte]
  have hloop : readDataLoop (mkDataLine count addr bytes ck) count hex.buffer addr
      (if (addr : Int) ≠ hex.current_addr
        then (⟨addr, 0⟩ : mem_block_t) :: hex.blocks else hex.blocks)
      (count + ((addr >>> 8) &&& 0xFF) + (addr &&& 0xFF)) 9 =
      some (writeBytes hex.buffer addr bytes, addr + count,
        bumpHead count (if (addr : Int) ≠ hex.current_addr
          then (⟨addr, 0⟩ : mem_block_t) :: hex.blocks else hex.blocks),
        count + ((addr >>> 8) &&& 0xFF) + (addr &&& 0xFF) + bytes.sum, 9 + 2 * count) := by
    have h := readDataLoop_encode (mkDataLine count addr bytes ck) bytes hex.buffer addr
      (if (addr : Int) ≠ hex.current_addr
        then (⟨addr, 0⟩ : mem_block_t) :: hex.blocks else hex.blocks)
      (count + ((addr >>> 8) &&& 0xFF) + (addr &&& 0xFF)) 9 (encodeByte ck) hdrop9 hbytes
    rw [hlen] at h
    exact h
  have hdropck : (mkDataLine count addr bytes ck).drop (9 + 2 * count) =
      encodeByte ck ++ [] := by
    rw [← List.drop_drop (2 * count) 9 (mkDataLine count addr bytes ck), hdrop9, ← hlen]
    rw [List.drop_left' (flatMap_encodeByte_length bytes)]
    rw [List.append_nil]
  have hgetck : get_byte (mkDataLine count addr bytes ck) (9 + 2 * count) =
      some (ck, 9 + 2 * count + 2) :=
    get_byte_encode hck hdropck
  have hhead : (mkDataLine count addr bytes ck).head? = some ':' := rfl
  have hlength : (mkDataLine count addr bytes ck).length = 11 + 2 * count :=
    mkDataLine_length count addr bytes ck hlen
  have hne0 : ¬ (count = 0) := by omega
  have hnb : ¬ (hex.buffer_size ≤ addr) := by omega
  simp only [ne_eq, ite_not] at hloop
  simp only [ihex_read_record, hhead, hget1, hget3, hget7, hloop, hgetck, hlength,
    recordSum, hne0, hnb, ne_eq, ite_not, eq_self_iff_true, if_true, if_false,
    lt_self_iff_false, not_true, not_false_eq_true]

end Prom

namespace Prom

/-- C2: a data record is accepted exactly when its trailing checksum byte is
the 8-bit two's-complement negation of the sum of the byte count, the two
address bytes and the data bytes; when the equation fails, the record — and
with it the whole decode, from any state the loop has reached — fails with
the bad-checksum error naming the offending line's number. -/
theorem ihex_checksum_law (hex : hexfile_t) (count addr : Nat) (bytes : List Nat)
    (ck : Nat) (hlen : bytes.length = count) (h0 : 0 < count) (hc : count < 256)
    (haddr16 : addr < 65536) (haddr : addr < hex.buffer_size)
    (hbytes : ∀ b ∈ bytes, b < 256) (hck : ck < 256) :
    ((∃ hex', ihex_read_record hex (mkDataLine count addr bytes ck) = .ok hex') ↔
      ck = negByte (recordSum count addr bytes)) ∧
    (ck ≠ negByte (recordSum count addr bytes) →
      ihex_read_record hex (mkDataLine count addr bytes ck) =
        .error (.bad_checksum (hex.lines + 1)) ∧
      ∀ rest, ihex_run hex (mkDataLine count addr bytes ck :: rest) =
        .fail (.bad_checksum (hex.lines + 1)) []) := by
  have h := ihex_read_record_data hex count addr bytes ck hlen h0 hc haddr16 haddr
    hbytes hck
  constructor
  · constructor
    · rintro ⟨hex', hok⟩
      by_cases hcksum : ck = negByte (recordSum count addr bytes)
      · exact hcksum
      · rw [h, if_neg hcksum] at hok
        exact absurd hok (by simp)
    · intro hcksum
      exact ⟨_, by rw [h, if_pos hcksum]⟩
  · intro hcksum
    have herr : ihex_read_record hex (mkDataLine count addr bytes ck) =
        .error (.bad_checksum (hex.lines + 1)) := by
      rw [h, if_neg hcksum]
    refine ⟨herr, fun rest => ?_⟩
    rw [ihex_run, ihex_loop, herr]

/-- Witness for C2: the record `:0100000041BD` (correct checksum would be
`BE`) is rejected by a whole-file decode with the bad-checksum error naming
line 1 and an empty block list. -/
theorem ihex_checksum_law_witness :
    ihex_run ⟨(fun _ => 0), 4096, -1, 0, [], false⟩ [(":0100000041BD").toList] =
      .fail (.bad_checksum 1) [] := by
  have hline : mkDataLine 1 0 [0x41] 0xBD = (":0100000041BD").toList := by decide
  have h := (ihex_checksum_law ⟨(fun _ => 0), 4096, -1, 0, [], false⟩ 1 0 [0x41] 0xBD
    rfl (by decide) (by decide) (by decide) (by decide) (by decide) (by decide)).2
    (by decide)
  rw [← hline]
  exact h.2 []

/-- C3 counterexample: a file whose single line is a perfectly valid data
record but which ends without the `:00000001FF` terminator makes the decode
fail — yet the returned block list is the partially built one, not empty. -/
theorem ihex_read_eof_without_end_keeps_blocks :
    ihex_read (fun _ => 0) 4096 [(":0100000041BE").toList] =
      .fail .unexpected_end [⟨0, 1⟩] ∧
    ([(⟨0, 1⟩ : mem_block_t)] ≠ ([] : List mem_block_t)) :=
  ⟨rfl, by decide⟩

/-- C3 (amended): when the decode fails, the returned block list is empty in
every case except the end-of-file-without-terminating-record failure, where
the partially built block list of the final loop state is handed back. -/
theorem ihex_read_failure_block_list (data : Nat → Nat) (size : Nat)
    (ls : List (List Char)) (e : hex_err) (bs : List mem_block_t)
    (h : ihex_read data size ls = .fail e bs) :
    bs = [] ∨ (e = .unexpected_end ∧
      ∃ hex', ihex_loop ⟨data, size, -1, 0, [], false⟩ ls = .ok hex' ∧
        bs = hex'.blocks ∧ hex'.complete = false) := by
  rw [ihex_read, ihex_run] at h
  cases hloop : ihex_loop ⟨data, size, -1, 0, [], false⟩ ls with
  | error e' =>
    rw [hloop] at h
    injection h with h1 h2
    exact Or.inl h2.symm
  | ok hex' =>
    rw [hloop] at h
    have h2 : (if hex'.complete = true then read_result.ok hex'
        else read_result.fail .unexpected_end hex'.blocks) = .fail e bs := h
    by_cases hcomp : hex'.complete
    · rw [if_pos hcomp] at h2
      exact absurd h2 (by simp)
    · rw [if_neg hcomp] at h2
      injection h2 with h3 h4
      exact Or.inr ⟨h3.symm, hex', rfl, h4.symm, by simpa using hcomp⟩

/-- Witness for C3's amended theorem at the counterexample input. -/
theorem ihex_read_failure_block_list_witness :
    ([(⟨0, 1⟩ : mem_block_t)] = ([] : List mem_block_t)) ∨
      (hex_err.unexpected_end = hex_err.unexpected_end ∧
        ∃ hex', ihex_loop ⟨(fun _ => 0), 4096, -1, 0, [], false⟩
            [(":0100000041BE").toList] = .ok hex' ∧
          [(⟨0, 1⟩ : mem_block_t)] = hex'.blocks ∧ hex'.complete = false) :=
  ihex_read_failure_block_list (fun _ => 0) 4096 [(":0100000041BE").toList]
    .unexpected_end [⟨0, 1⟩] rfl

end Prom

namespace Prom

lemma negByte_lt (s : Nat) : negByte s < 256 := by
  rw [negByte]
  omega

lemma writeBytes_map_range (data : Nat → Nat) :
    ∀ (n : Nat) (buf : Nat → Nat) (pos a : Nat),
      writeBytes buf pos ((List.range' pos n).map data) a =
        if pos ≤ a ∧ a < pos + n then data a else buf a := by
  intro n
  induction n with
  | zero =>
    intro buf pos a
    rw [List.range']
    simp only [List.map_nil, writeBytes]
    rw [if_neg (by omega)]
  | succ m ih =>
    intro buf pos a
    rw [List.range']
    simp only [List.map_cons, writeBytes]
    rw [ih (updFn buf pos (data pos)) (pos + 1) a]
    by_cases h1 : pos + 1 ≤ a ∧ a < pos + 1 + m
    · rw [if_pos h1, if_pos (by omega)]
    · rw [if_neg h1]
      by_cases h2 : a = pos
      · rw [if_pos (by omega), updFn, h2, if_pos rfl]
      · rw [if_neg (by omega), updFn, if_neg h2]

lemma ihex_read_record_end (hex : hexfile_t) :
    ihex_read_record hex ((":00000001FF").toList) =
      .ok ⟨hex.buffer, hex.buffer_size, hex.current_addr, hex.lines + 1, hex.blocks,
        true⟩ := rfl

lemma ihex_loop_append (l1 l2 : List (List Char)) :
    ∀ hex, ihex_loop hex (l1 ++ l2) =
      match ihex_loop hex l1 with
      | .error e => .error e
      | .ok h => ihex_loop h l2 := by
  induction l1 with
  | nil => intro hex; rfl
  | cons l ls ih =>
    intro hex
    rw [List.cons_append, ihex_loop, ihex_loop]
    cases ihex_read_record hex l with
    | error e => rfl
    | ok hex' => exact ih hex'

lemma ihexChunks_cons (data : Nat → Nat) (size base fuel pos : Nat) (h : pos < size) :
    ihexChunks data size base (fuel + 1) pos =
      ihexChunkLine data base pos (min INTEL_WRITE_BYTES_PER_LINE (size - pos)) ::
        ihexChunks data size base fuel (pos + min INTEL_WRITE_BYTES_PER_LINE (size - pos)) := by
  rw [ihexChunks, if_pos h]

lemma ihex_loop_chunks (data : Nat → Nat) (size : Nat)
    (hdata : ∀ i, data i < 256) (hsize16 : size ≤ 65536) :
    ∀ (fuel pos : Nat) (hex : hexfile_t), size - pos ≤ fuel →
      size ≤ hex.buffer_size →
      ∃ hex', ihex_loop hex (ihexChunks data size 0 fuel pos) = .ok hex' ∧
        (∀ a, hex'.buffer a = if pos ≤ a ∧ a < size then data a else hex.buffer a) ∧
        hex'.complete = hex.complete ∧ hex'.buffer_size = hex.buffer_size := by
  intro fuel
  induction fuel with
  | zero =>
    intro pos hex hfuel hbs
    refine ⟨hex, by rw [ihexChunks]; rfl, fun a => ?_, rfl, rfl⟩
    rw [if_neg (by omega)]
  | succ m ih =>
    intro pos hex hfuel hbs
    by_cases hpos : pos < size
    · have hn : 0 < min INTEL_WRITE_BYTES_PER_LINE (size - pos) ∧
          min INTEL_WRITE_BYTES_PER_LINE (size - pos) ≤ 32 ∧
          min INTEL_WRITE_BYTES_PER_LINE (size - pos) ≤ size - pos := by
        rw [INTEL_WRITE_BYTES_PER_LINE]
        omega
      set n := min INTEL_WRITE_BYTES_PER_LINE (size - pos) with hndef
      have hmod : (0 + pos) % 65536 = pos := by
        rw [Nat.zero_add]
        exact Nat.mod_eq_of_lt (by omega)
      have hline : ihexChunkLine data 0 pos n =
          mkDataLine n pos ((List.range' pos n).map data)
            (negByte (recordSum n pos ((List.range' pos n).map data))) := by
        rw [ihexChunkLine, hmod]
      have hrec := ihex_read_record_data hex n pos ((List.range' pos n).map data)
        (negByte (recordSum n pos ((List.range' pos n).map data)))
        (by simp) (by omega) (by omega) (by omega) (by omega)
        (by intro b hb; simp at hb; obtain ⟨i, _, hi⟩ := hb; rw [← hi]; exact hdata i)
        (negByte_lt _)
      rw [if_pos rfl] at hrec
      rw [ihexChunks_cons data size 0 m pos hpos, ← hndef, ihex_loop, hline, hrec]
      obtain ⟨hex', hl, hbuf, hcomp, hbs'⟩ := ih (pos + n)
        ⟨writeBytes hex.buffer pos ((List.range' pos n).map data), hex.buffer_size,
          ((pos + n : Nat) : Int), hex.lines + 1,
          bumpHead n (if (pos : Int) ≠ hex.current_addr
            then (⟨pos, 0⟩ : mem_block_t) :: hex.blocks else hex.blocks),
          hex.complete⟩
        (by omega) (by exact hbs)
      refine ⟨hex', hl, fun a => ?_, hcomp, hbs'⟩
      rw [hbuf a]
      by_cases h1 : pos + n ≤ a ∧ a < size
      · rw [if_pos h1, if_pos (by omega)]
      · rw [if_neg h1]
        show (writeBytes hex.buffer pos ((List.range' pos n).map data)) a = _
        rw [writeBytes_map_range data n hex.buffer pos a]
        by_cases h2 : pos ≤ a ∧ a < pos + n
        · rw [if_pos h2, if_pos (by omega)]
        · rw [if_neg h2, if_neg (by omega)]
    · refine ⟨hex, by rw [ihexChunks, if_neg hpos]; rfl, fun a => ?_, rfl, rfl⟩
      rw [if_neg (by omega)]

end Prom

namespace Prom

lemma readDataLoop_buffer_bound (line : List Char) :
    ∀ (k : Nat) (buf : Nat → Nat) (cur : Nat) (blocks : List mem_block_t)
      (acc idx : Nat) buf' cur' blocks' acc' idx',
      (∀ a, buf a < 256) →
      readDataLoop line k buf cur blocks acc idx =
        some (buf', cur', blocks', acc', idx') →
      ∀ a, buf' a < 256 := by
  intro k
  induction k with
  | zero =>
    intro buf cur blocks acc idx buf' cur' blocks' acc' idx' hb h
    rw [readDataLoop] at h
    obtain ⟨h1, -⟩ := Option.some.inj h |> Prod.mk.inj
    rw [← h1]
    exact hb
  | succ m ih =>
    intro buf cur blocks acc idx buf' cur' blocks' acc' idx' hb h
    rw [readDataLoop] at h
    cases hg : get_byte line idx with
    | none => rw [hg] at h; exact absurd h (by simp)
    | some v =>
      obtain ⟨b, j⟩ := v
      rw [hg] at h
      have hb256 := (get_byte_bound hg).1
      exact ih (updFn buf cur b) (cur + 1) (bumpHead 1 blocks) (acc + b) j
        buf' cur' blocks' acc' idx'
        (fun a => by rw [updFn]; split <;> [exact hb256; exact hb a]) h

lemma ihex_read_record_buffer_bound (hex : hexfile_t) (l : List Char) (hex' : hexfile_t)
    (hb : ∀ a, hex.buffer a < 256)
    (hok : ihex_read_record hex l = .ok hex') : ∀ a, hex'.buffer a < 256 := by
  rw [ihex_read_record] at hok
  by_cases hh : l.head? ≠ some ':'
  · rw [if_pos hh] at hok
    exact absurd hok (by simp)
  rw [if_neg hh] at hok
  cases hg1 : get_byte l 1 with
  | none =>
    simp only [hg1] at hok
    exact absurd hok (by simp)
  | some v1 =>
    obtain ⟨line_bytes, idx1⟩ := v1
    simp only [hg1] at hok
    by_cases hl1 : l.length < 11 + 2 * line_bytes
    · rw [if_pos hl1] at hok
      exact absurd hok (by simp)
    rw [if_neg hl1] at hok
    by_cases hz : line_bytes = 0
    · rw [if_pos hz] at hok
      by_cases hend : l.take 11 = (":00000001FF").toList
      · rw [if_pos hend] at hok
        rw [← Except.ok.inj hok]
        exact hb
      · rw [if_neg hend] at hok
        exact absurd hok (by simp)
    rw [if_neg hz] at hok
    cases hg2 : get_word l idx1 with
    | none =>
      simp only [hg2] at hok
      exact absurd hok (by simp)
    | some v2 =>
      obtain ⟨load_address, idx2⟩ := v2
      simp only [hg2] at hok
      by_cases ha : hex.buffer_size ≤ load_address
      · rw [if_pos ha] at hok
        exact absurd hok (by simp)
      rw [if_neg ha] at hok
      cases hg3 : get_byte l idx2 with
      | none =>
        simp only [hg3] at hok
        exact absurd hok (by simp)
      | some v3 =>
        obtain ⟨record_type, idx3⟩ := v3
        simp only [hg3] at hok
        by_cases ht : record_type ≠ 0
        · rw [if_pos ht] at hok
          exact absurd hok (by simp)
        rw [if_neg ht] at hok
        cases hg4 : readDataLoop l line_bytes hex.buffer load_address
            (if (load_address : Int) ≠ hex.current_addr
              then (⟨load_address, 0⟩ : mem_block_t) :: hex.blocks else hex.blocks)
            (line_bytes + ((load_address >>> 8) &&& 0xFF) + (load_address &&& 0xFF))
            idx3 with
        | none =>
          simp only [hg4] at hok
          exact absurd hok (by simp)
        | some v4 =>
          obtain ⟨buf, cur, blocks2, acc, idx4⟩ := v4
          simp only [hg4] at hok
          cases hg5 : get_byte l idx4 with
          | none =>
            simp only [hg5] at hok
            exact absurd hok (by simp)
          | some v5 =>
            obtain ⟨checksum, trailing⟩ := v5
            simp only [hg5] at hok
            by_cases hc : checksum ≠ negByte acc
            · rw [if_pos hc] at hok
              exact absurd hok (by simp)
            rw [if_neg hc] at hok
            have hbuf := readDataLoop_buffer_bound l line_bytes hex.buffer
              _ _ _ _ buf cur blocks2 acc idx4 hb hg4
            rw [← Except.ok.inj hok]
            exact hbuf

end Prom

namespace Prom

lemma ihex_loop_buffer_bound :
    ∀ (ls : List (List Char)) (hex hex' : hexfile_t),
      (∀ a, hex.buffer a < 256) → ihex_loop hex ls = .ok hex' →
      ∀ a, hex'.buffer a < 256 := by
  intro ls
  induction ls with
  | nil =>
    intro hex hex' hb h
    rw [ihex_loop] at h
    rw [← Except.ok.inj h]
    exact hb
  | cons l rest ih =>
    intro hex hex' hb h
    rw [ihex_loop] at h
    cases hr : ihex_read_record hex l with
    | error e => rw [hr] at h; exact absurd h (by simp)
    | ok hexm =>
      rw [hr] at h
      exact ih hexm hex' (ihex_read_record_buffer_bound hex l hexm hb hr) h

/-- C7: decoding a well-formed Intel-HEX file into an image and block list
and re-encoding the image from its base address 0 yields a file whose decode
restores byte-identical data at every address the original blocks cover
(`size` is the extent being re-encoded — e.g. the chip size — and must reach
every covered address; addresses fit the format's 16-bit field). -/
theorem ihex_decode_encode_roundtrip (data0 : Nat → Nat) (bufsize : Nat)
    (ls : List (List Char)) (hex : hexfile_t)
    (hdec : ihex_read data0 bufsize ls = .ok hex)
    (hb0 : ∀ a, data0 a < 256)
    (size bufsize2 : Nat) (data2 : Nat → Nat)
    (hs0 : 0 < size) (hs16 : size ≤ 65536) (hsB : size ≤ bufsize2)
    (hcov : ∀ a, coveredBy hex.blocks a → a < size) :
    ∃ hex2, ihex_read data2 bufsize2 (ihex_write_lines hex.buffer size 0) = .ok hex2 ∧
      ∀ a, coveredBy hex.blocks a → hex2.buffer a = hex.buffer a := by
  have hbb : ∀ a, hex.buffer a < 256 := by
    rw [ihex_read, ihex_run] at hdec
    cases hl : ihex_loop ⟨data0, bufsize, -1, 0, [], false⟩ ls with
    | error e => rw [hl] at hdec; exact absurd hdec (by simp)
    | ok hexm =>
      rw [hl] at hdec
      have hdec2 : (if hexm.complete = true then read_result.ok hexm
          else read_result.fail .unexpected_end hexm.blocks) = .ok hex := hdec
      by_cases hc : hexm.complete
      · rw [if_pos hc] at hdec2
        injection hdec2 with he
        rw [← he]
        exact ihex_loop_buffer_bound ls _ hexm hb0 hl
      · rw [if_neg hc] at hdec2
        exact absurd hdec2 (by simp)
  obtain ⟨hex1, hl1, hbuf1, hcomp1, hbs1⟩ :=
    ihex_loop_chunks hex.buffer size hbb hs16 size 0
      ⟨data2, bufsize2, -1, 0, [], false⟩ (by omega) hsB
  refine ⟨⟨hex1.buffer, hex1.buffer_size, hex1.current_addr, hex1.lines + 1,
    hex1.blocks, true⟩, ?_, ?_⟩
  · have hfull : ihex_loop ⟨data2, bufsize2, -1, 0, [], false⟩
        (ihexChunks hex.buffer size 0 size 0 ++ [(":00000001FF").toList]) =
        .ok ⟨hex1.buffer, hex1.buffer_size, hex1.current_addr, hex1.lines + 1,
          hex1.blocks, true⟩ := by
      rw [ihex_loop_append, hl1]
      show ihex_loop hex1 [(":00000001FF").toList] = _
      rw [ihex_loop, ihex_read_record_end hex1]
      rfl
    rw [ihex_read, ihex_run, ihex_write_lines, hfull]
    rfl
  · intro a hc
    have ha := hcov a hc
    show hex1.buffer a = hex.buffer a
    rw [hbuf1 a, if_pos (by omega)]

/-- Witness for C7: decoding a two-line file (one data byte 0x41 at address
0, then the end record) and re-encoding its image for a 256-cell chip
restores the byte at the covered address. -/
theorem ihex_decode_encode_roundtrip_witness :
    ∃ hex2, ihex_read (fun _ => 0) 4096
        (ihex_write_lines (updFn (fun _ => 0) 0 0x41) 256 0) = .ok hex2 ∧
      ∀ a, coveredBy [⟨0, 1⟩] a → hex2.buffer a = updFn (fun _ => 0) 0 0x41 a := by
  have hdec : ihex_read (fun _ => 0) 4096
      [(":0100000041BE").toList, (":00000001FF").toList] =
      .ok ⟨updFn (fun _ => 0) 0 0x41, 4096, 1, 2, [⟨0, 1⟩], true⟩ := rfl
  exact ihex_decode_encode_roundtrip (fun _ => 0) 4096
    [(":0100000041BE").toList, (":00000001FF").toList]
    ⟨updFn (fun _ => 0) 0 0x41, 4096, 1, 2, [⟨0, 1⟩], true⟩ hdec
    (fun a => by norm_num) 256 4096 (fun _ => 0) (by norm_num) (by norm_num)
    (by norm_num)
    (by rintro a ⟨b, hb, h1, h2⟩; simp at hb; rw [hb] at h1 h2; simp at h1 h2; omega)

end Prom
